import Mathlib

/-!
Shallow embedding of the document-cleaning pipeline in
src/knowledge_engine/rag/cleaning/pdf_text_extractor.py.

Python strings are modelled as lists of characters (ASCII whitespace,
digit and case conventions).  Each definition mirrors one Python
function; the filesystem / PDF environment of the loader is passed as an
explicit record.
-/

/-- Python whitespace characters recognised by str.strip and friends
(ASCII fragment). -/
def pyIsSpace (c : Char) : Bool :=
  c = ' ' || c = '\t' || c = '\n' || c = '\r' ||
  c = Char.ofNat 11 || c = Char.ofNat 12

/-- Python str.lstrip with no arguments. -/
def pyLstrip (l : List Char) : List Char := l.dropWhile pyIsSpace

/-- Python str.rstrip with no arguments. -/
def pyRstrip (l : List Char) : List Char :=
  (l.reverse.dropWhile pyIsSpace).reverse

/-- Python str.strip with no arguments. -/
def pyStrip (l : List Char) : List Char := pyLstrip (pyRstrip l)

/-- Python str.lower (ASCII fragment). -/
def pyLowerStr (l : List Char) : List Char := l.map Char.toLower

/-- Python str.isdigit (ASCII fragment): nonempty and all digits. -/
def pyIsdigit (s : List Char) : Bool := !s.isEmpty && s.all Char.isDigit

/-- Python str.split(sep) for a single-character separator. -/
def splitOnChar (sep : Char) : List Char → List (List Char)
  | [] => [[]]
  | c :: cs =>
    if c = sep then [] :: splitOnChar sep cs
    else
      match splitOnChar sep cs with
      | [] => [[c]]
      | l :: ls => (c :: l) :: ls

/-- Python text.split(newline). -/
def splitNl (s : List Char) : List (List Char) := splitOnChar '\n' s

/-- Python newline.join(lines). -/
def joinNl : List (List Char) → List Char
  | [] => []
  | [l] => l
  | l :: l2 :: ls => l ++ '\n' :: joinNl (l2 :: ls)

/-- Python text.replace of a carriage-return/newline pair by a newline
(left-to-right, non-overlapping). -/
def replaceCRLF : List Char → List Char
  | '\r' :: '\n' :: rest => '\n' :: replaceCRLF rest
  | c :: rest => c :: replaceCRLF rest
  | [] => []

/-- Python text.replace of every remaining carriage return by a newline. -/
def replaceCR (s : List Char) : List Char :=
  s.map (fun c => if c = '\r' then '\n' else c)

/-- Python text.replace of every tab by a space. -/
def replaceTab (s : List Char) : List Char :=
  s.map (fun c => if c = '\t' then ' ' else c)

/-- Python line.strip() == empty, the blank-line test used throughout the
source. -/
def isBlankL (l : List Char) : Bool := (pyStrip l).isEmpty

/-- Python s.endswith(c) for a single character c. -/
def endsWithChar (l : List Char) (c : Char) : Bool := l.getLast? == some c

/-- Python s.endswith(tuple) where every tuple entry is one character. -/
def endsWithAny (l : List Char) (cs : List Char) : Bool :=
  match l.getLast? with
  | none => false
  | some c => cs.contains c

/-- Python s[0].islower() guarded by nonemptiness, as in the source's
`nxt_s and nxt_s[0].islower()`. -/
def firstLower : List Char → Bool
  | [] => false
  | c :: _ => c.isLower

/-- CleanConfig from pdf_text_extractor.py.  The two scan counts are
Python ints; the spec's data-model invariant makes them non-negative, so
they are embedded as naturals. -/
structure CleanConfig where
  header_scan_lines : Nat := 10
  footer_scan_lines : Nat := 3
  header_footer_exact : List (List Char) :=
    ["Financial Conduct Authority".toList, "FG22/5".toList]
  header_footer_prefixes : List (List Char) :=
    ["FG22/5 Final non-Handbook Guidance".toList, "Chapter".toList]

/-- CleanConfig() with all dataclass defaults. -/
def defaultCleanConfig : CleanConfig := {}

/-- The prefix loop inside is_header_or_footer: an entry whose lowercase
form is the word chapter is matched case-insensitively against the
line's lowercased start, any other entry case-sensitively. -/
def checkPrefixes (s : List Char) : List (List Char) → Bool
  | [] => false
  | pref :: rest =>
    if pyLowerStr pref = "chapter".toList then
      (if List.isPrefixOf "chapter".toList (pyLowerStr s) then true
       else checkPrefixes s rest)
    else
      (if List.isPrefixOf pref s then true else checkPrefixes s rest)

/-- is_header_or_footer from pdf_text_extractor.py. -/
def is_header_or_footer (line : List Char) (cfg : CleanConfig) : Bool :=
  let s := pyStrip line
  if s.isEmpty then false
  else if pyIsdigit s && decide (s.length ≤ 3) then true
  else if cfg.header_footer_exact.contains s then true
  else checkPrefixes s cfg.header_footer_prefixes

/-- The blank-collapse loop of clean_page_text: drop a blank line whose
predecessor (as recorded in prev_blank) was blank. -/
def collapseBlanksAux : List (List Char) → Bool → List (List Char)
  | [], _ => []
  | l :: ls, prevBlank =>
    if isBlankL l && prevBlank then collapseBlanksAux ls prevBlank
    else l :: collapseBlanksAux ls (isBlankL l)

/-- clean_page_text from pdf_text_extractor.py: normalise line endings
and tabs, right-trim every line, collapse blank runs to one blank. -/
def clean_page_text (text : List Char) : List Char :=
  let cleaned := replaceTab (replaceCR (replaceCRLF text))
  let lines := (splitNl cleaned).map pyRstrip
  let cleaned2 := joinNl lines
  joinNl (collapseBlanksAux (splitNl cleaned2) false)

/-- The keep-condition of the loop body of remove_headers_footers: the
two continue statements, negated. -/
def rhfKeep (cfg : CleanConfig) (n i : Nat) (line : List Char) : Bool :=
  !(decide (i < cfg.header_scan_lines) && is_header_or_footer line cfg) &&
  !(decide (n - cfg.footer_scan_lines ≤ i) && is_header_or_footer line cfg)

/-- remove_headers_footers from pdf_text_extractor.py. -/
def remove_headers_footers (text : List Char) (cfg : CleanConfig) : List Char :=
  let lines := splitNl text
  joinNl ((lines.enum.filter
    (fun p => rhfKeep cfg lines.length p.1 p.2)).map Prod.snd)

/-- punct_end tuple of join_wrapped_lines. -/
def punct_end : List Char := ['.', '!', '?', ';', ':', '”', '"', '’', '\'']

/-- bullet marker characters of join_wrapped_lines. -/
def bulletChars : List Char := ['•', '-', '*', '–', '—']

/-- is_bullet from join_wrapped_lines: the left-stripped line starts
with a bullet marker. -/
def isBulletB (line : List Char) : Bool :=
  match pyLstrip line with
  | [] => false
  | c :: _ => bulletChars.contains c

/-- is_section_marker from join_wrapped_lines: the stripped line matches
the anchored regular expression digits, then dot-digit groups.  Encoded
as: splitting on dots yields only nonempty all-digit segments. -/
def isSectionB (line : List Char) : Bool :=
  let s := pyStrip line
  (splitOnChar '.' s).all (fun seg => !seg.isEmpty && seg.all Char.isDigit)

/-- Python str.istitle (ASCII fragment): state machine over characters,
tracking whether the previous character was cased and whether any cased
character was seen. -/
def istitleAux : List Char → Bool → Bool → Bool
  | [], _, found => found
  | c :: rest, prevCased, found =>
    if c.isUpper then (if prevCased then false else istitleAux rest true true)
    else if c.isLower then
      (if prevCased then istitleAux rest true true else false)
    else istitleAux rest false found

/-- Python s.istitle (ASCII fragment). -/
def pyIstitle (s : List Char) : Bool := istitleAux s false false

/-- The while loop of join_wrapped_lines, one equation per loop shape;
the branch order follows the source. -/
def joinLines : List (List Char) → List (List Char)
  | [] => []
  | [cur] => if isBlankL cur then [[]] else [pyRstrip cur]
  | cur :: nxt :: rest =>
    if isBlankL cur then [] :: joinLines (nxt :: rest)
    else if isBlankL nxt then pyRstrip cur :: joinLines (nxt :: rest)
    else if isBulletB cur || isBulletB nxt then
      pyRstrip cur :: joinLines (nxt :: rest)
    else if isSectionB cur || isSectionB nxt then
      pyRstrip cur :: joinLines (nxt :: rest)
    else if decide ((pyStrip cur).length ≤ 40) && pyIstitle (pyStrip cur) then
      pyRstrip cur :: joinLines (nxt :: rest)
    else if endsWithAny (pyRstrip cur) punct_end then
      pyRstrip cur :: joinLines (nxt :: rest)
    else if endsWithChar (pyRstrip cur) '-' && firstLower (pyStrip nxt) then
      ((pyRstrip cur).dropLast ++ pyLstrip nxt) :: joinLines rest
    else if firstLower (pyStrip nxt) then
      (pyRstrip cur ++ ' ' :: pyLstrip nxt) :: joinLines rest
    else pyRstrip cur :: joinLines (nxt :: rest)

/-- join_wrapped_lines from pdf_text_extractor.py. -/
def join_wrapped_lines (text : List Char) : List Char :=
  joinNl (joinLines (splitNl text))

/-- Error kinds raised by load_pdf_text_by_page: FileNotFoundError, the
two distinct ValueError messages, and a failure of the PDF library. -/
inductive PdfError where
  | notFound
  | invalidFormat
  | emptyInput
  | extractionFailure
deriving DecidableEq

/-- The filesystem / PDF-library environment that load_pdf_text_by_page
consults: whether the path is an existing regular file, its extension
(with the dot, as Path.suffix), its size in bytes, and the pages the PDF
library would extract (none when opening or parsing fails). -/
structure PdfEnv where
  isRegularFile : Bool
  suffix : List Char
  sizeBytes : Nat
  extractedPages : Option (List (List Char))

/-- load_pdf_text_by_page from pdf_text_extractor.py, with the raised
exceptions embedded as error values. -/
def load_pdf_text_by_page (env : PdfEnv) :
    Except PdfError (List (List Char)) :=
  if !env.isRegularFile then .error .notFound
  else if pyLowerStr env.suffix ≠ ".pdf".toList then .error .invalidFormat
  else if env.sizeBytes = 0 then .error .emptyInput
  else
    match env.extractedPages with
    | none => .error .extractionFailure
    | some pages => .ok pages

/-- The per-page body of clean_pdf_to_pages. -/
def cleanOnePage (cfg : CleanConfig) (raw : List Char) : List Char :=
  join_wrapped_lines (remove_headers_footers (clean_page_text raw) cfg)

/-- clean_pdf_to_pages from pdf_text_extractor.py (the caller passes the
config; Python defaults it to CleanConfig()). -/
def clean_pdf_to_pages (env : PdfEnv) (cfg : CleanConfig) :
    Except PdfError (List (List Char)) :=
  match load_pdf_text_by_page env with
  | .error e => .error e
  | .ok raw_pages => .ok (raw_pages.map (cleanOnePage cfg))

/-!
Specification-side definitions.  These follow the wording of the spec
claims, to be compared with the source-derived functions above.
-/

/-- Claim wording of the C3 prefix rule: the literal marker Chapter is
matched case-insensitively against the line's start, every other entry
case-sensitively. -/
def claimPrefixRule (p s : List Char) : Bool :=
  if p = "Chapter".toList then
    List.isPrefixOf "chapter".toList (pyLowerStr s)
  else List.isPrefixOf p s

/-- Claim C3 as stated: the trimmed line is non-blank and is a short
digit string, an exact boilerplate string, or matches a configured
entry under claimPrefixRule. -/
def isBoilerplateClaim (line : List Char) (cfg : CleanConfig) : Bool :=
  let s := pyStrip line
  !s.isEmpty &&
    (pyIsdigit s && decide (s.length ≤ 3) ||
     cfg.header_footer_exact.contains s ||
     cfg.header_footer_prefixes.any (fun p => claimPrefixRule p s))

/-- Amended C3 prefix rule: an entry equal to chapter ignoring case is
matched case-insensitively against the line's start, every other entry
case-sensitively. -/
def amendedPrefixRule (p s : List Char) : Bool :=
  if pyLowerStr p = "chapter".toList then
    List.isPrefixOf "chapter".toList (pyLowerStr s)
  else List.isPrefixOf p s

/-- Amended claim C3 with the prefix special case keyed on the entry's
lowercase form being chapter. -/
def isBoilerplateAmended (line : List Char) (cfg : CleanConfig) : Bool :=
  let s := pyStrip line
  !s.isEmpty &&
    (pyIsdigit s && decide (s.length ≤ 3) ||
     cfg.header_footer_exact.contains s ||
     cfg.header_footer_prefixes.any (fun p => amendedPrefixRule p s))

/-- Claim wording of C2: the line at index i is removed exactly when it
is inside the header or footer zone and is classified as boilerplate. -/
def removeSpecB (cfg : CleanConfig) (n i : Nat) (line : List Char) : Bool :=
  (decide (i < cfg.header_scan_lines) ||
   decide (n - cfg.footer_scan_lines ≤ i)) &&
  is_header_or_footer line cfg

/-- The exact condition under which the join_wrapped_lines loop merges
the current line with the next one and advances by two. -/
def mergeCond (cur nxt : List Char) : Bool :=
  !isBlankL cur && !isBlankL nxt &&
  !(isBulletB cur || isBulletB nxt) &&
  !(isSectionB cur || isSectionB nxt) &&
  !(decide ((pyStrip cur).length ≤ 40) && pyIstitle (pyStrip cur)) &&
  !endsWithAny (pyRstrip cur) punct_end &&
  firstLower (pyStrip nxt)

/-- The line emitted by a two-line merge of join_wrapped_lines: the
hyphenation repair when the current line ends in a hyphen, otherwise
the space join. -/
def mergedOf (cur nxt : List Char) : List Char :=
  if endsWithChar (pyRstrip cur) '-' then
    (pyRstrip cur).dropLast ++ pyLstrip nxt
  else pyRstrip cur ++ ' ' :: pyLstrip nxt

/-- Number of lines of a text, as Python text.split(newline) counts
them. -/
def numLines (t : List Char) : Nat := (splitNl t).length

/-- Adjacency invariant of the blank-collapse loop: starting from a
previous-blank flag, no kept line is blank while the flag is set, and
the flag is updated to the blankness of each kept line. -/
def chainOK : Bool → List (List Char) → Bool
  | _, [] => true
  | b, x :: rest => !(b && isBlankL x) && chainOK (isBlankL x) rest

/-!
Helper lemmas about the string primitives.
-/

theorem pyRstrip_eq_rdropWhile (l : List Char) :
    pyRstrip l = List.rdropWhile pyIsSpace l := rfl

theorem pyLstrip_eq_nil_iff {l : List Char} :
    pyLstrip l = [] ↔ ∀ c ∈ l, pyIsSpace c := List.dropWhile_eq_nil_iff

theorem pyRstrip_eq_nil_iff {l : List Char} :
    pyRstrip l = [] ↔ ∀ c ∈ l, pyIsSpace c := by
  rw [pyRstrip_eq_rdropWhile]; exact List.rdropWhile_eq_nil_iff

theorem mem_pyRstrip {c : Char} {l : List Char} (h : c ∈ pyRstrip l) :
    c ∈ l := by
  rw [pyRstrip_eq_rdropWhile] at h
  exact (List.rdropWhile_prefix pyIsSpace l).subset h

theorem mem_pyLstrip {c : Char} {l : List Char} (h : c ∈ pyLstrip l) :
    c ∈ l := (List.dropWhile_suffix pyIsSpace).subset h

theorem mem_pyStrip {c : Char} {l : List Char} (h : c ∈ pyStrip l) :
    c ∈ l := mem_pyRstrip (mem_pyLstrip h)

theorem pyRstrip_idem (l : List Char) :
    pyRstrip (pyRstrip l) = pyRstrip l := by
  simp only [pyRstrip_eq_rdropWhile]
  exact List.rdropWhile_idempotent pyIsSpace l

theorem getLast?_pyRstrip_not_space {l : List Char} (h : pyRstrip l ≠ []) :
    ∃ c, (pyRstrip l).getLast? = some c ∧ pyIsSpace c = false := by
  refine ⟨(pyRstrip l).getLast h, List.getLast?_eq_getLast _ h, ?_⟩
  have h2 := List.rdropWhile_last_not (p := pyIsSpace) (l := l)
    (by simpa [pyRstrip_eq_rdropWhile] using h)
  simpa [pyRstrip_eq_rdropWhile] using h2

theorem pyRstrip_eq_self_of_last {l : List Char} {c : Char}
    (h1 : l.getLast? = some c) (h2 : pyIsSpace c = false) :
    pyRstrip l = l := by
  rw [pyRstrip_eq_rdropWhile]
  apply List.rdropWhile_eq_self_iff.mpr
  intro hl
  have h3 : l.getLast hl = c := by
    rw [List.getLast?_eq_getLast l hl] at h1
    exact Option.some.inj h1
  simp [h3, h2]

theorem pyStrip_eq_nil_iff {l : List Char} :
    pyStrip l = [] ↔ ∀ c ∈ l, pyIsSpace c := by
  unfold pyStrip
  constructor
  · intro h c hc
    by_cases hr : pyRstrip l = []
    · exact pyRstrip_eq_nil_iff.mp hr c hc
    · obtain ⟨d, hd1, hd2⟩ := getLast?_pyRstrip_not_space hr
      have hmem : d ∈ pyRstrip l := by
        have := List.getLast?_eq_getLast (pyRstrip l) hr
        rw [this] at hd1
        have := List.getLast_mem hr
        rwa [Option.some.inj hd1] at this
      have := pyLstrip_eq_nil_iff.mp h d hmem
      rw [hd2] at this
      exact absurd this (by simp)
  · intro h
    have : pyRstrip l = [] := pyRstrip_eq_nil_iff.mpr h
    rw [this]
    rfl

theorem getLast?_dropWhile {p : Char → Bool} :
    ∀ l : List Char, l.dropWhile p ≠ [] →
      (l.dropWhile p).getLast? = l.getLast? := by
  intro l
  induction l with
  | nil => intro h; simp at h
  | cons a as ih =>
    intro h
    by_cases hp : p a
    · rw [List.dropWhile_cons_of_pos hp] at h ⊢
      have has : as ≠ [] := by
        intro hn; rw [hn] at h; simp at h
      rw [ih h]
      cases as with
      | nil => exact absurd rfl has
      | cons b bs => rw [List.getLast?_cons_cons]
    · rw [List.dropWhile_cons_of_neg hp]

theorem pyStrip_idem (l : List Char) : pyStrip (pyStrip l) = pyStrip l := by
  by_cases h : pyStrip l = []
  · rw [h]; rfl
  · have hx : pyLstrip (pyRstrip l) ≠ [] := h
    have hr : pyRstrip l ≠ [] := by
      intro hn
      apply hx
      rw [hn]
      rfl
    obtain ⟨c, hc1, hc2⟩ := getLast?_pyRstrip_not_space hr
    have hlast : (pyStrip l).getLast? = some c := by
      show (List.dropWhile pyIsSpace (pyRstrip l)).getLast? = some c
      rw [getLast?_dropWhile _ hx]
      exact hc1
    show pyLstrip (pyRstrip (pyStrip l)) = pyStrip l
    rw [pyRstrip_eq_self_of_last hlast hc2]
    show List.dropWhile pyIsSpace (List.dropWhile pyIsSpace (pyRstrip l)) =
      List.dropWhile pyIsSpace (pyRstrip l)
    exact List.dropWhile_idempotent pyIsSpace (pyRstrip l)

theorem pyStrip_pyRstrip (l : List Char) :
    pyStrip (pyRstrip l) = pyStrip l := by
  unfold pyStrip
  rw [pyRstrip_idem]

theorem isBlankL_iff {l : List Char} :
    isBlankL l = true ↔ ∀ c ∈ l, pyIsSpace c := by
  unfold isBlankL
  rw [List.isEmpty_iff]
  exact pyStrip_eq_nil_iff

theorem isBlankL_pyRstrip (l : List Char) :
    isBlankL (pyRstrip l) = isBlankL l := by
  unfold isBlankL
  rw [pyStrip_pyRstrip]

theorem pyRstrip_of_blank {l : List Char} (h : isBlankL l = true) :
    pyRstrip l = [] :=
  pyRstrip_eq_nil_iff.mpr (isBlankL_iff.mp h)

theorem map_eq_self_of_fix {α : Type} (f : α → α) :
    ∀ l : List α, (∀ x ∈ l, f x = x) → l.map f = l := by
  intro l
  induction l with
  | nil => intro _; rfl
  | cons a as ih =>
    intro h
    simp only [List.map_cons]
    rw [h a (by simp), ih (fun x hx => h x (by simp [hx]))]

theorem splitOnChar_ne_nil (sep : Char) :
    ∀ s : List Char, splitOnChar sep s ≠ [] := by
  intro s
  induction s with
  | nil => simp [splitOnChar]
  | cons c cs ih =>
    simp only [splitOnChar]
    split
    · simp
    · split
      · simp
      · simp

theorem not_sep_of_mem_splitOnChar {sep : Char} :
    ∀ {s l : List Char}, l ∈ splitOnChar sep s → sep ∉ l := by
  intro s
  induction s with
  | nil =>
    intro l hl
    simp [splitOnChar] at hl
    simp [hl]
  | cons c cs ih =>
    intro l hl
    simp only [splitOnChar] at hl
    by_cases hc : c = sep
    · rw [if_pos hc] at hl
      rcases List.mem_cons.mp hl with h | h
      · simp [h]
      · exact ih h
    · rw [if_neg hc] at hl
      rcases hsp : splitOnChar sep cs with _ | ⟨m, ms⟩
      · exact absurd hsp (splitOnChar_ne_nil sep cs)
      · rw [hsp] at hl
        rcases List.mem_cons.mp hl with h | h
        · subst h
          intro hmem
          rcases List.mem_cons.mp hmem with h | h
          · exact hc h.symm
          · exact ih (by rw [hsp]; exact List.mem_cons_self m ms) h
        · exact ih (by rw [hsp]; exact List.mem_cons_of_mem m h)

theorem mem_of_mem_splitOnChar {sep c : Char} :
    ∀ {s l : List Char}, l ∈ splitOnChar sep s → c ∈ l → c ∈ s := by
  intro s
  induction s with
  | nil =>
    intro l hl hc
    simp [splitOnChar] at hl
    subst hl
    simp at hc
  | cons a as ih =>
    intro l hl hc
    simp only [splitOnChar] at hl
    by_cases ha : a = sep
    · rw [if_pos ha] at hl
      rcases List.mem_cons.mp hl with h | h
      · subst h; simp at hc
      · exact List.mem_cons_of_mem a (ih h hc)
    · rw [if_neg ha] at hl
      rcases hsp : splitOnChar sep as with _ | ⟨m, ms⟩
      · exact absurd hsp (splitOnChar_ne_nil sep as)
      · rw [hsp] at hl
        rcases List.mem_cons.mp hl with h | h
        · subst h
          rcases List.mem_cons.mp hc with h | h
          · simp [h]
          · exact List.mem_cons_of_mem a
              (ih (by rw [hsp]; exact List.mem_cons_self m ms) h)
        · exact List.mem_cons_of_mem a
            (ih (by rw [hsp]; exact List.mem_cons_of_mem m h) hc)

theorem splitOnChar_eq_single {sep : Char} :
    ∀ {a : List Char}, sep ∉ a → splitOnChar sep a = [a] := by
  intro a
  induction a with
  | nil => intro _; rfl
  | cons c cs ih =>
    intro h
    have hc : ¬c = sep := fun hh => h (by simp [hh])
    have hcs : sep ∉ cs := fun hh => h (List.mem_cons_of_mem c hh)
    simp only [splitOnChar, if_neg hc, ih hcs]

theorem splitOnChar_append_sep {sep : Char} :
    ∀ {a : List Char}, sep ∉ a → ∀ s : List Char,
      splitOnChar sep (a ++ sep :: s) = a :: splitOnChar sep s := by
  intro a
  induction a with
  | nil => intro _ s; simp [splitOnChar]
  | cons c cs ih =>
    intro h s
    have hc : ¬c = sep := fun hh => h (by simp [hh])
    have hcs : sep ∉ cs := fun hh => h (List.mem_cons_of_mem c hh)
    simp only [List.cons_append, splitOnChar, if_neg hc, List.append_eq]
    rw [ih hcs s]

theorem splitNl_joinNl :
    ∀ L : List (List Char), (∀ l ∈ L, '\n' ∉ l) → L ≠ [] →
      splitNl (joinNl L) = L := by
  intro L
  induction L with
  | nil => intro _ h; exact absurd rfl h
  | cons l L ih =>
    intro h _
    cases L with
    | nil =>
      show splitOnChar '\n' (joinNl [l]) = [l]
      simp only [joinNl]
      exact splitOnChar_eq_single (h l (by simp))
    | cons l2 ls =>
      show splitOnChar '\n' (joinNl (l :: l2 :: ls)) = l :: l2 :: ls
      simp only [joinNl]
      rw [splitOnChar_append_sep (h l (by simp))]
      have := ih (fun x hx => h x (List.mem_cons_of_mem l hx)) (by simp)
      exact congrArg (l :: ·) this

theorem mem_joinNl {c : Char} :
    ∀ {L : List (List Char)}, c ∈ joinNl L → c = '\n' ∨ ∃ l ∈ L, c ∈ l := by
  intro L
  induction L with
  | nil => intro h; simp [joinNl] at h
  | cons l L ih =>
    intro h
    cases L with
    | nil =>
      simp only [joinNl] at h
      exact Or.inr ⟨l, by simp, h⟩
    | cons l2 ls =>
      simp only [joinNl, List.mem_append, List.mem_cons] at h
      rcases h with h | h | h
      · exact Or.inr ⟨l, by simp, h⟩
      · exact Or.inl h
      · rcases ih h with h2 | ⟨m, hm, hcm⟩
        · exact Or.inl h2
        · exact Or.inr ⟨m, List.mem_cons_of_mem l hm, hcm⟩

theorem replaceCR_no_cr (s : List Char) : '\r' ∉ replaceCR s := by
  unfold replaceCR
  intro h
  rcases List.mem_map.mp h with ⟨a, _, ha⟩
  by_cases hc : a = '\r'
  · rw [if_pos hc] at ha
    exact absurd ha (by decide)
  · rw [if_neg hc] at ha
    exact hc ha

theorem replaceTab_no_tab (s : List Char) : '\t' ∉ replaceTab s := by
  unfold replaceTab
  intro h
  rcases List.mem_map.mp h with ⟨a, _, ha⟩
  by_cases hc : a = '\t'
  · rw [if_pos hc] at ha
    exact absurd ha (by decide)
  · rw [if_neg hc] at ha
    exact hc ha

theorem replaceTab_no_cr {s : List Char} (h : '\r' ∉ s) :
    '\r' ∉ replaceTab s := by
  unfold replaceTab
  intro hm
  rcases List.mem_map.mp hm with ⟨a, hmem, ha⟩
  by_cases hc : a = '\t'
  · rw [if_pos hc] at ha
    exact absurd ha (by decide)
  · rw [if_neg hc] at ha
    rw [ha] at hmem
    exact h hmem

theorem replaceCRLF_eq_self : ∀ {s : List Char}, '\r' ∉ s → replaceCRLF s = s := by
  intro s
  induction s using replaceCRLF.induct with
  | case1 rest _ =>
    intro h
    exact absurd (by simp) h
  | case2 c rest _ ih =>
    intro h
    have : '\r' ∉ rest := fun hh => h (List.mem_cons_of_mem c hh)
    rw [replaceCRLF.eq_def]
    split
    · rename_i heq
      rw [List.cons.injEq] at heq
      exact absurd (by simp [heq.1]) h
    · rename_i c2 rest2 _ heq
      rw [List.cons.injEq] at heq
      rw [← heq.1, ← heq.2]
      rw [ih this]
    · rename_i heq
      exact absurd heq (by simp)
  | case3 => intro _; rfl

theorem replaceCR_eq_self {s : List Char} (h : '\r' ∉ s) :
    replaceCR s = s := by
  unfold replaceCR
  apply map_eq_self_of_fix
  intro a ha
  have : ¬a = '\r' := fun hh => h (hh ▸ ha)
  rw [if_neg this]

theorem replaceTab_eq_self {s : List Char} (h : '\t' ∉ s) :
    replaceTab s = s := by
  unfold replaceTab
  apply map_eq_self_of_fix
  intro a ha
  have : ¬a = '\t' := fun hh => h (hh ▸ ha)
  rw [if_neg this]

/-!
Helper lemmas about the blank-collapse loop and clean_page_text.
-/

theorem isBlankL_nil : isBlankL ([] : List Char) = true := rfl

theorem mem_collapseBlanksAux :
    ∀ {L : List (List Char)} {b : Bool} {x : List Char},
      x ∈ collapseBlanksAux L b → x ∈ L := by
  intro L
  induction L with
  | nil => intro b x h; simp [collapseBlanksAux] at h
  | cons l ls ih =>
    intro b x h
    simp only [collapseBlanksAux] at h
    by_cases hc : (isBlankL l && b) = true
    · rw [if_pos hc] at h
      exact List.mem_cons_of_mem l (ih h)
    · rw [if_neg hc] at h
      rcases List.mem_cons.mp h with h | h
      · simp [h]
      · exact List.mem_cons_of_mem l (ih h)

theorem collapseBlanksAux_ne_nil {L : List (List Char)} (h : L ≠ []) :
    collapseBlanksAux L false ≠ [] := by
  cases L with
  | nil => exact absurd rfl h
  | cons l ls =>
    simp only [collapseBlanksAux, Bool.and_false]
    simp

theorem chainOK_collapseBlanksAux :
    ∀ (L : List (List Char)) (b : Bool),
      chainOK b (collapseBlanksAux L b) = true := by
  intro L
  induction L with
  | nil => intro b; rfl
  | cons l ls ih =>
    intro b
    simp only [collapseBlanksAux]
    by_cases hc : (isBlankL l && b) = true
    · rw [if_pos hc]
      exact ih b
    · rw [if_neg hc]
      simp only [chainOK]
      have h1 : (b && isBlankL l) = false := by
        rw [Bool.and_comm]
        exact Bool.eq_false_iff.mpr hc
      rw [h1]
      simp only [Bool.not_false, Bool.true_and]
      exact ih (isBlankL l)

theorem collapseBlanksAux_eq_self :
    ∀ {L : List (List Char)} {b : Bool}, chainOK b L = true →
      collapseBlanksAux L b = L := by
  intro L
  induction L with
  | nil => intro b _; rfl
  | cons l ls ih =>
    intro b h
    simp only [chainOK] at h
    rw [Bool.and_eq_true] at h
    obtain ⟨h1, h2⟩ := h
    simp only [collapseBlanksAux]
    have hc : (isBlankL l && b) = false := by
      rw [Bool.and_comm]
      cases hb : b
      · rw [Bool.false_and]
      · cases hl : isBlankL l
        · rw [Bool.and_false]
        · exfalso
          rw [hb, hl] at h1
          simp at h1
    rw [hc]
    simp only [Bool.false_eq_true, if_false]
    rw [ih h2]

theorem collapseBlanksAux_append_nonblank :
    ∀ (X Y : List (List Char)) (b : Bool), (∀ l ∈ X, isBlankL l = false) →
      collapseBlanksAux (X ++ Y) b =
        X ++ collapseBlanksAux Y (if X.isEmpty then b else false) := by
  intro X
  induction X with
  | nil => intro Y b _; simp
  | cons x X ih =>
    intro Y b h
    have hx : isBlankL x = false := h x (by simp)
    simp only [List.cons_append, collapseBlanksAux, hx, Bool.false_and,
      Bool.false_eq_true, if_false, List.append_eq]
    rw [ih Y false (fun l hl => h l (List.mem_cons_of_mem x hl))]
    simp [ite_self]

theorem collapseBlanksAux_blank_skip :
    ∀ (n : Nat) (Y : List (List Char)),
      collapseBlanksAux (List.replicate n [] ++ Y) true =
        collapseBlanksAux Y true := by
  intro n
  induction n with
  | zero => intro Y; rfl
  | succ n ih =>
    intro Y
    simp only [List.replicate_succ, List.cons_append, collapseBlanksAux,
      isBlankL_nil, Bool.and_self, if_true, List.append_eq]
    exact ih Y

theorem collapseBlanksAux_blankrun :
    ∀ (n : Nat) (Y : List (List Char)),
      collapseBlanksAux (List.replicate (n + 1) [] ++ Y) false =
        [] :: collapseBlanksAux Y true := by
  intro n Y
  simp only [List.replicate_succ, List.cons_append, collapseBlanksAux,
    isBlankL_nil, Bool.and_false, Bool.false_eq_true, if_false, List.append_eq]
  rw [collapseBlanksAux_blank_skip n Y]

theorem collapseBlanksAux_all_nonblank :
    ∀ (Y : List (List Char)) (b : Bool), (∀ l ∈ Y, isBlankL l = false) →
      collapseBlanksAux Y b = Y := by
  intro Y
  induction Y with
  | nil => intro b _; rfl
  | cons y Y ih =>
    intro b h
    have hy : isBlankL y = false := h y (by simp)
    simp only [collapseBlanksAux, hy, Bool.false_and, Bool.false_eq_true,
      if_false]
    rw [ih false (fun l hl => h l (List.mem_cons_of_mem y hl))]

/-- The normalisation prefix of clean_page_text: the three character
replacements in source order. -/
theorem clean_page_text_eq (t : List Char) :
    clean_page_text t =
      joinNl (collapseBlanksAux
        ((splitNl (replaceTab (replaceCR (replaceCRLF t)))).map pyRstrip)
        false) := by
  show joinNl (collapseBlanksAux (splitNl (joinNl
    ((splitNl (replaceTab (replaceCR (replaceCRLF t)))).map pyRstrip)))
    false) = _
  rw [splitNl_joinNl]
  · intro l hl
    rcases List.mem_map.mp hl with ⟨m, hm, rfl⟩
    intro hc
    exact not_sep_of_mem_splitOnChar hm (mem_pyRstrip hc)
  · intro h
    rw [List.map_eq_nil_iff] at h
    exact splitOnChar_ne_nil '\n' _ h

theorem mem_clean_page_text {c : Char} {t : List Char}
    (h : c ∈ clean_page_text t) :
    c = '\n' ∨ c ∈ replaceTab (replaceCR (replaceCRLF t)) := by
  rw [clean_page_text_eq] at h
  rcases mem_joinNl h with h | ⟨l, hl, hcl⟩
  · exact Or.inl h
  · right
    rcases List.mem_map.mp (mem_collapseBlanksAux hl) with ⟨m, hm, rfl⟩
    exact mem_of_mem_splitOnChar hm (mem_pyRstrip hcl)

theorem no_cr_clean_page_text (t : List Char) :
    '\r' ∉ clean_page_text t := by
  intro h
  rcases mem_clean_page_text h with h | h
  · exact absurd h (by decide)
  · exact replaceTab_no_cr (replaceCR_no_cr (replaceCRLF t)) h

theorem no_tab_clean_page_text (t : List Char) :
    '\t' ∉ clean_page_text t := by
  intro h
  rcases mem_clean_page_text h with h | h
  · exact absurd h (by decide)
  · exact replaceTab_no_tab (replaceCR (replaceCRLF t)) h

theorem map_eq_replicate_of_const {α β : Type} (f : α → β) (b : β) :
    ∀ l : List α, (∀ x ∈ l, f x = b) →
      l.map f = List.replicate l.length b := by
  intro l
  induction l with
  | nil => intro _; rfl
  | cons a as ih =>
    intro h
    simp only [List.map_cons, List.length_cons, List.replicate_succ]
    rw [h a (by simp), ih (fun x hx => h x (List.mem_cons_of_mem a hx))]

/-- Claim C4: clean_page_text is idempotent: re-applying the Normalizer
to its own output yields the same output, for every page text. -/
theorem clean_page_text_idempotent (x : List Char) :
    clean_page_text (clean_page_text x) = clean_page_text x := by
  have hcr := no_cr_clean_page_text x
  have htab := no_tab_clean_page_text x
  have h1 : replaceCRLF (clean_page_text x) = clean_page_text x :=
    replaceCRLF_eq_self hcr
  have h2 : replaceCR (clean_page_text x) = clean_page_text x :=
    replaceCR_eq_self hcr
  have h3 : replaceTab (clean_page_text x) = clean_page_text x :=
    replaceTab_eq_self htab
  rw [clean_page_text_eq (clean_page_text x), h1, h2, h3]
  rw [clean_page_text_eq x]
  have hMnl : ∀ l ∈ collapseBlanksAux
      ((splitNl (replaceTab (replaceCR (replaceCRLF x)))).map pyRstrip) false,
      '\n' ∉ l := by
    intro l hl
    rcases List.mem_map.mp (mem_collapseBlanksAux hl) with ⟨m, hm, rfl⟩
    intro hc
    exact not_sep_of_mem_splitOnChar hm (mem_pyRstrip hc)
  have hMne : collapseBlanksAux
      ((splitNl (replaceTab (replaceCR (replaceCRLF x)))).map pyRstrip) false
      ≠ [] := by
    apply collapseBlanksAux_ne_nil
    intro h
    rw [List.map_eq_nil_iff] at h
    exact splitOnChar_ne_nil '\n' _ h
  rw [splitNl_joinNl _ hMnl hMne]
  have hfix : ∀ l ∈ collapseBlanksAux
      ((splitNl (replaceTab (replaceCR (replaceCRLF x)))).map pyRstrip) false,
      pyRstrip l = l := by
    intro l hl
    rcases List.mem_map.mp (mem_collapseBlanksAux hl) with ⟨m, _, rfl⟩
    exact pyRstrip_idem m
  rw [map_eq_self_of_fix pyRstrip _ hfix]
  rw [collapseBlanksAux_eq_self (chainOK_collapseBlanksAux _ false)]

/-- Claim C10: is_header_or_footer is invariant under stripping the line
of leading and trailing whitespace, because every rule is evaluated on
the trimmed line. -/
theorem is_header_or_footer_strip_invariant
    (line : List Char) (cfg : CleanConfig) :
    is_header_or_footer line cfg = is_header_or_footer (pyStrip line) cfg := by
  simp only [is_header_or_footer, pyStrip_idem]

theorem replaceTab_no_nl {s : List Char} (h : '\n' ∉ s) :
    '\n' ∉ replaceTab s := by
  unfold replaceTab
  intro hm
  rcases List.mem_map.mp hm with ⟨a, hmem, ha⟩
  by_cases hc : a = '\t'
  · rw [if_pos hc] at ha
    exact absurd ha (by decide)
  · rw [if_neg hc] at ha
    rw [ha] at hmem
    exact h hmem

theorem isBlankL_replaceTab (l : List Char) :
    isBlankL (replaceTab l) = isBlankL l := by
  by_cases h : isBlankL l = true
  · have h2 : isBlankL (replaceTab l) = true := by
      apply isBlankL_iff.mpr
      intro c hc
      rcases List.mem_map.mp hc with ⟨a, ha, rfl⟩
      by_cases ht : a = '\t'
      · rw [if_pos ht]
        decide
      · rw [if_neg ht]
        exact isBlankL_iff.mp h a ha
    rw [h2, h]
  · have h2 : isBlankL l = false := by simpa using h
    cases hrb : isBlankL (replaceTab l)
    · rw [h2]
    · exfalso
      apply h
      apply isBlankL_iff.mpr
      intro c hc
      have hmem : (if c = '\t' then ' ' else c) ∈ replaceTab l :=
        List.mem_map_of_mem _ hc
      have hsp := isBlankL_iff.mp hrb _ hmem
      by_cases ht : c = '\t'
      · rw [ht]
        decide
      · rw [if_neg ht] at hsp
        exact hsp

theorem replaceTab_joinNl : ∀ L : List (List Char),
    replaceTab (joinNl L) = joinNl (L.map replaceTab) := by
  intro L
  induction L with
  | nil => rfl
  | cons l L ih =>
    cases L with
    | nil => rfl
    | cons l2 ls =>
      show replaceTab (l ++ '\n' :: joinNl (l2 :: ls)) =
        joinNl (replaceTab l :: replaceTab l2 :: ls.map replaceTab)
      have step : replaceTab (l ++ '\n' :: joinNl (l2 :: ls)) =
          replaceTab l ++ '\n' :: replaceTab (joinNl (l2 :: ls)) := by
        unfold replaceTab
        rw [List.map_append, List.map_cons]
        rw [if_neg (by decide : ¬('\n' = '\t'))]
      rw [step, ih]
      rfl

theorem collapseBlanksAux_cons_nonblank {x : List Char}
    (h : isBlankL x = false) (t : List (List Char)) (b : Bool) :
    collapseBlanksAux (x :: t) b = x :: collapseBlanksAux t false := by
  simp only [collapseBlanksAux, h, Bool.false_and, Bool.false_eq_true,
    if_false]

theorem collapseBlanksAux_append :
    ∀ (X Y : List (List Char)) (b : Bool),
      collapseBlanksAux (X ++ Y) b =
        collapseBlanksAux X b ++
          collapseBlanksAux Y
            (match X.getLast? with
             | none => b
             | some x => isBlankL x) := by
  intro X
  induction X with
  | nil => intro Y b; rfl
  | cons x X ih =>
    intro Y b
    cases X with
    | nil =>
      show collapseBlanksAux (x :: Y) b =
        collapseBlanksAux [x] b ++ collapseBlanksAux Y (isBlankL x)
      by_cases hc : (isBlankL x && b) = true
      · have hc2 := hc
        rw [Bool.and_eq_true] at hc2
        obtain ⟨hx, hb⟩ := hc2
        simp only [collapseBlanksAux, if_pos hc]
        rw [hx, hb, List.nil_append]
      · simp only [collapseBlanksAux, if_neg hc]
        rfl
    | cons x2 X2 =>
      have hlast : (x :: x2 :: X2).getLast? = (x2 :: X2).getLast? :=
        List.getLast?_cons_cons
      rcases hg : (x2 :: X2).getLast? with _ | a
      · exact absurd hg (by simp [List.getLast?_eq_none_iff])
      · show collapseBlanksAux ((x :: x2 :: X2) ++ Y) b =
          collapseBlanksAux (x :: x2 :: X2) b ++
            collapseBlanksAux Y
              (match (x :: x2 :: X2).getLast? with
               | none => b
               | some x => isBlankL x)
        rw [hlast, hg]
        by_cases hc : (isBlankL x && b) = true
        · have e1 : collapseBlanksAux ((x :: x2 :: X2) ++ Y) b =
              collapseBlanksAux ((x2 :: X2) ++ Y) b := by
            simp only [List.cons_append, collapseBlanksAux, if_pos hc,
              List.append_eq]
          have e2 : collapseBlanksAux (x :: x2 :: X2) b =
              collapseBlanksAux (x2 :: X2) b := by
            simp only [collapseBlanksAux, if_pos hc]
          rw [e1, e2, ih Y b, hg]
        · have e1 : collapseBlanksAux ((x :: x2 :: X2) ++ Y) b =
              x :: collapseBlanksAux ((x2 :: X2) ++ Y) (isBlankL x) := by
            simp only [List.cons_append, collapseBlanksAux, if_neg hc,
              List.append_eq]
          have e2 : collapseBlanksAux (x :: x2 :: X2) b =
              x :: collapseBlanksAux (x2 :: X2) (isBlankL x) := by
            simp only [collapseBlanksAux, if_neg hc]
          rw [e1, e2, ih Y (isBlankL x), hg]
          rfl

/-- Decomposition of clean_page_text around one maximal run of blank
lines: with the run's immediate neighbours non-blank (the prefix and
suffix are otherwise arbitrary), the cleaned page is the cleaned prefix,
one blank line, and the cleaned suffix. -/
theorem clean_page_text_run_decomp
    (A R B : List (List Char)) (hN : 1 ≤ R.length)
    (hflat : ∀ l ∈ A ++ R ++ B, '\n' ∉ l ∧ '\r' ∉ l)
    (hR : ∀ l ∈ R, isBlankL l = true)
    (hA : ∀ a, A.getLast? = some a → isBlankL a = false)
    (hB : ∀ b, B.head? = some b → isBlankL b = false) :
    clean_page_text (joinNl (A ++ R ++ B)) =
      joinNl (collapseBlanksAux (A.map (pyRstrip ∘ replaceTab)) false
        ++ [] :: collapseBlanksAux (B.map (pyRstrip ∘ replaceTab)) false) := by
  have hnocr : '\r' ∉ joinNl (A ++ R ++ B) := by
    intro h
    rcases mem_joinNl h with h | ⟨l, hl, hcl⟩
    · exact absurd h (by decide)
    · exact (hflat l hl).2 hcl
  rw [clean_page_text_eq, replaceCRLF_eq_self hnocr, replaceCR_eq_self hnocr]
  rw [replaceTab_joinNl]
  have hmapnl : ∀ l ∈ (A ++ R ++ B).map replaceTab, '\n' ∉ l := by
    intro l hl
    rcases List.mem_map.mp hl with ⟨m, hm, rfl⟩
    exact replaceTab_no_nl (hflat m hm).1
  have hmapne : (A ++ R ++ B).map replaceTab ≠ [] := by
    intro h
    rw [List.map_eq_nil_iff] at h
    have := congrArg List.length h
    simp only [List.length_append, List.length_nil] at this
    omega
  rw [splitNl_joinNl _ hmapnl hmapne]
  rw [List.map_map]
  rw [List.map_append, List.map_append]
  rw [map_eq_replicate_of_const (pyRstrip ∘ replaceTab) ([] : List Char) R
    (by
      intro r hr
      show pyRstrip (replaceTab r) = []
      apply pyRstrip_of_blank
      rw [isBlankL_replaceTab]
      exact hR r hr)]
  rw [List.append_assoc]
  rw [collapseBlanksAux_append (A.map (pyRstrip ∘ replaceTab)) _ false]
  have hstate : (match (A.map (pyRstrip ∘ replaceTab)).getLast? with
      | none => false
      | some x => isBlankL x) = false := by
    rw [List.getLast?_map]
    cases hg : A.getLast? with
    | none => rfl
    | some a =>
      show isBlankL (pyRstrip (replaceTab a)) = false
      rw [isBlankL_pyRstrip, isBlankL_replaceTab]
      exact hA a hg
  rw [hstate]
  obtain ⟨n, hn⟩ : ∃ n, R.length = n + 1 := ⟨R.length - 1, by omega⟩
  rw [hn, collapseBlanksAux_blankrun n (B.map (pyRstrip ∘ replaceTab))]
  have hBcol : collapseBlanksAux (B.map (pyRstrip ∘ replaceTab)) true
      = collapseBlanksAux (B.map (pyRstrip ∘ replaceTab)) false := by
    cases B with
    | nil => rfl
    | cons b t =>
      have hb : isBlankL ((pyRstrip ∘ replaceTab) b) = false := by
        show isBlankL (pyRstrip (replaceTab b)) = false
        rw [isBlankL_pyRstrip, isBlankL_replaceTab]
        exact hB b rfl
      simp only [List.map_cons]
      rw [collapseBlanksAux_cons_nonblank hb, collapseBlanksAux_cons_nonblank hb]
  rw [hBcol]

/-- Claim C5: for every page text whose lines decompose as a prefix A, a
maximal run R of N blank lines (any N at least 1; the claim's cases are
N at least 2, collapsed, and N = 1, preserved unchanged) and a suffix B,
with the run's immediate neighbours non-blank and lines free of embedded
newlines and carriage returns, clean_page_text produces the same text as
for a single blank line in that position, namely the cleaned prefix,
exactly one blank line at that position, and the cleaned suffix; A and B
are otherwise arbitrary and may contain further blank runs. -/
theorem clean_page_text_blank_collapse
    (A R B : List (List Char)) (hN : 1 ≤ R.length)
    (hflat : ∀ l ∈ A ++ R ++ B, '\n' ∉ l ∧ '\r' ∉ l)
    (hR : ∀ l ∈ R, isBlankL l = true)
    (hA : ∀ a, A.getLast? = some a → isBlankL a = false)
    (hB : ∀ b, B.head? = some b → isBlankL b = false) :
    clean_page_text (joinNl (A ++ R ++ B)) =
      clean_page_text (joinNl (A ++ [[]] ++ B)) ∧
    splitNl (clean_page_text (joinNl (A ++ R ++ B))) =
      collapseBlanksAux (A.map (pyRstrip ∘ replaceTab)) false
        ++ [] :: collapseBlanksAux (B.map (pyRstrip ∘ replaceTab)) false := by
  have hflat1 : ∀ l ∈ A ++ [[]] ++ B, '\n' ∉ l ∧ '\r' ∉ l := by
    intro l hl
    rcases List.mem_append.mp hl with h | h
    · rcases List.mem_append.mp h with h | h
      · exact hflat l (List.mem_append_left B (List.mem_append_left R h))
      · have : l = [] := by simpa using h
        subst this
        exact ⟨by simp, by simp⟩
    · exact hflat l (List.mem_append_right (A ++ R) h)
  have hmain := clean_page_text_run_decomp A R B hN hflat hR hA hB
  have hsingle := clean_page_text_run_decomp A [[]] B (by simp) hflat1
    (by
      intro l hl
      have : l = [] := by simpa using hl
      subst this
      exact isBlankL_nil)
    hA hB
  refine ⟨by rw [hmain, hsingle], ?_⟩
  rw [hmain]
  apply splitNl_joinNl
  · intro l hl
    rcases List.mem_append.mp hl with h | h
    · rcases List.mem_map.mp (mem_collapseBlanksAux h) with ⟨m, hm, rfl⟩
      intro hc
      exact replaceTab_no_nl
        (fun hx => (hflat m (List.mem_append_left B
          (List.mem_append_left R hm))).1 hx)
        (mem_pyRstrip hc)
    · rcases List.mem_cons.mp h with h | h
      · subst h
        simp
      · rcases List.mem_map.mp (mem_collapseBlanksAux h) with ⟨m, hm, rfl⟩
        intro hc
        exact replaceTab_no_nl
          (fun hx => (hflat m (List.mem_append_right (A ++ R) hm)).1 hx)
          (mem_pyRstrip hc)
  · simp

/-!
Helper lemmas about join_wrapped_lines.
-/

theorem isBulletB_not_blank {cur : List Char} (h : isBulletB cur = true) :
    isBlankL cur = false := by
  unfold isBulletB at h
  rcases hl : pyLstrip cur with _ | ⟨c, t⟩
  · rw [hl] at h
    simp at h
  · rw [hl] at h
    have hc : c ∈ cur := mem_pyLstrip (by rw [hl]; simp)
    have hmem : c = '•' ∨ c = '-' ∨ c = '*' ∨ c = '–' ∨ c = '—' := by
      have : c ∈ bulletChars := by simpa using h
      simpa [bulletChars] using this
    have hcs : pyIsSpace c = false := by
      rcases hmem with rfl | rfl | rfl | rfl | rfl <;> decide
    cases hb : isBlankL cur
    · rfl
    · exfalso
      have := isBlankL_iff.mp hb c hc
      rw [hcs] at this
      exact absurd this (by simp)

theorem joinLines_length : ∀ ls : List (List Char),
    (joinLines ls).length ≤ ls.length := by
  intro ls
  induction ls using joinLines.induct with
  | case1 => simp [joinLines]
  | case2 l hb => simp [joinLines, hb]
  | case3 l hb => simp [joinLines, hb]
  | case4 l l2 ls hb ih =>
    simp only [joinLines, if_pos hb, List.length_cons]
    have ih2 : (joinLines (l2 :: ls)).length ≤ ls.length + 1 := by
      simpa using ih
    omega
  | case5 l l2 ls h1 h2 ih =>
    simp only [joinLines, if_neg h1, if_pos h2, List.length_cons]
    have ih2 : (joinLines (l2 :: ls)).length ≤ ls.length + 1 := by
      simpa using ih
    omega
  | case6 l l2 ls h1 h2 h3 ih =>
    simp only [joinLines, if_neg h1, if_neg h2, if_pos h3, List.length_cons]
    have ih2 : (joinLines (l2 :: ls)).length ≤ ls.length + 1 := by
      simpa using ih
    omega
  | case7 l l2 ls h1 h2 h3 h4 ih =>
    simp only [joinLines, if_neg h1, if_neg h2, if_neg h3, if_pos h4,
      List.length_cons]
    have ih2 : (joinLines (l2 :: ls)).length ≤ ls.length + 1 := by
      simpa using ih
    omega
  | case8 l l2 ls h1 h2 h3 h4 h5 ih =>
    simp only [joinLines, if_neg h1, if_neg h2, if_neg h3, if_neg h4,
      if_pos h5, List.length_cons]
    have ih2 : (joinLines (l2 :: ls)).length ≤ ls.length + 1 := by
      simpa using ih
    omega
  | case9 l l2 ls h1 h2 h3 h4 h5 h6 ih =>
    simp only [joinLines, if_neg h1, if_neg h2, if_neg h3, if_neg h4,
      if_neg h5, if_pos h6, List.length_cons]
    have ih2 : (joinLines (l2 :: ls)).length ≤ ls.length + 1 := by
      simpa using ih
    omega
  | case10 l l2 ls h1 h2 h3 h4 h5 h6 h7 ih =>
    simp only [joinLines, if_neg h1, if_neg h2, if_neg h3, if_neg h4,
      if_neg h5, if_neg h6, if_pos h7, List.length_cons]
    omega
  | case11 l l2 ls h1 h2 h3 h4 h5 h6 h7 h8 ih =>
    simp only [joinLines, if_neg h1, if_neg h2, if_neg h3, if_neg h4,
      if_neg h5, if_neg h6, if_neg h7, if_pos h8, List.length_cons]
    omega
  | case12 l l2 ls h1 h2 h3 h4 h5 h6 h7 h8 ih =>
    simp only [joinLines, if_neg h1, if_neg h2, if_neg h3, if_neg h4,
      if_neg h5, if_neg h6, if_neg h7, if_neg h8, List.length_cons]
    have ih2 : (joinLines (l2 :: ls)).length ≤ ls.length + 1 := by
      simpa using ih
    omega

theorem joinLines_ne_nil : ∀ {ls : List (List Char)}, ls ≠ [] →
    joinLines ls ≠ [] := by
  intro ls h
  rcases ls with _ | ⟨cur, _ | ⟨nxt, rest⟩⟩
  · exact absurd rfl h
  · cases hb : isBlankL cur <;> simp [joinLines, hb]
  · simp only [joinLines]
    repeat' split
    all_goals simp

theorem joinLines_no_nl : ∀ ls : List (List Char),
    (∀ l ∈ ls, '\n' ∉ l) → ∀ m ∈ joinLines ls, '\n' ∉ m := by
  intro ls
  induction ls using joinLines.induct with
  | case1 => intro _ m hm; simp [joinLines] at hm
  | case2 l hb =>
    intro _ m hm
    simp [joinLines, hb] at hm
    subst hm
    simp
  | case3 l hb =>
    intro h m hm
    simp [joinLines, hb] at hm
    subst hm
    intro hc
    exact h l (by simp) (mem_pyRstrip hc)
  | case4 l l2 ls hb ih =>
    intro h m hm
    simp only [joinLines, if_pos hb, List.mem_cons] at hm
    rcases hm with rfl | hm
    · simp
    · exact ih (fun x hx => h x (List.mem_cons_of_mem l hx)) m hm
  | case5 l l2 ls h1 h2 ih =>
    intro h m hm
    simp only [joinLines, if_neg h1, if_pos h2, List.mem_cons] at hm
    rcases hm with rfl | hm
    · intro hc; exact h l (by simp) (mem_pyRstrip hc)
    · exact ih (fun x hx => h x (List.mem_cons_of_mem l hx)) m hm
  | case6 l l2 ls h1 h2 h3 ih =>
    intro h m hm
    simp only [joinLines, if_neg h1, if_neg h2, if_pos h3,
      List.mem_cons] at hm
    rcases hm with rfl | hm
    · intro hc; exact h l (by simp) (mem_pyRstrip hc)
    · exact ih (fun x hx => h x (List.mem_cons_of_mem l hx)) m hm
  | case7 l l2 ls h1 h2 h3 h4 ih =>
    intro h m hm
    simp only [joinLines, if_neg h1, if_neg h2, if_neg h3, if_pos h4,
      List.mem_cons] at hm
    rcases hm with rfl | hm
    · intro hc; exact h l (by simp) (mem_pyRstrip hc)
    · exact ih (fun x hx => h x (List.mem_cons_of_mem l hx)) m hm
  | case8 l l2 ls h1 h2 h3 h4 h5 ih =>
    intro h m hm
    simp only [joinLines, if_neg h1, if_neg h2, if_neg h3, if_neg h4,
      if_pos h5, List.mem_cons] at hm
    rcases hm with rfl | hm
    · intro hc; exact h l (by simp) (mem_pyRstrip hc)
    · exact ih (fun x hx => h x (List.mem_cons_of_mem l hx)) m hm
  | case9 l l2 ls h1 h2 h3 h4 h5 h6 ih =>
    intro h m hm
    simp only [joinLines, if_neg h1, if_neg h2, if_neg h3, if_neg h4,
      if_neg h5, if_pos h6, List.mem_cons] at hm
    rcases hm with rfl | hm
    · intro hc; exact h l (by simp) (mem_pyRstrip hc)
    · exact ih (fun x hx => h x (List.mem_cons_of_mem l hx)) m hm
  | case10 l l2 ls h1 h2 h3 h4 h5 h6 h7 ih =>
    intro h m hm
    simp only [joinLines, if_neg h1, if_neg h2, if_neg h3, if_neg h4,
      if_neg h5, if_neg h6, if_pos h7, List.mem_cons] at hm
    rcases hm with rfl | hm
    · intro hc
      rcases List.mem_append.mp hc with hc | hc
      · exact h l (by simp)
          (mem_pyRstrip (List.dropLast_subset (pyRstrip l) hc))
      · exact h l2 (by simp) (mem_pyLstrip hc)
    · exact ih
        (fun x hx => h x (List.mem_cons_of_mem l (List.mem_cons_of_mem l2 hx)))
        m hm
  | case11 l l2 ls h1 h2 h3 h4 h5 h6 h7 h8 ih =>
    intro h m hm
    simp only [joinLines, if_neg h1, if_neg h2, if_neg h3, if_neg h4,
      if_neg h5, if_neg h6, if_neg h7, if_pos h8, List.mem_cons] at hm
    rcases hm with rfl | hm
    · intro hc
      rcases List.mem_append.mp hc with hc | hc
      · exact h l (by simp) (mem_pyRstrip hc)
      · rcases List.mem_cons.mp hc with hc | hc
        · exact absurd hc (by decide)
        · exact h l2 (by simp) (mem_pyLstrip hc)
    · exact ih
        (fun x hx => h x (List.mem_cons_of_mem l (List.mem_cons_of_mem l2 hx)))
        m hm
  | case12 l l2 ls h1 h2 h3 h4 h5 h6 h7 h8 ih =>
    intro h m hm
    simp only [joinLines, if_neg h1, if_neg h2, if_neg h3, if_neg h4,
      if_neg h5, if_neg h6, if_neg h7, if_neg h8, List.mem_cons] at hm
    rcases hm with rfl | hm
    · intro hc; exact h l (by simp) (mem_pyRstrip hc)
    · exact ih (fun x hx => h x (List.mem_cons_of_mem l hx)) m hm

theorem mergeCond_elim {cur nxt : List Char} (h : mergeCond cur nxt = true) :
    isBlankL cur = false ∧ isBlankL nxt = false ∧
    (isBulletB cur || isBulletB nxt) = false ∧
    (isSectionB cur || isSectionB nxt) = false ∧
    (decide ((pyStrip cur).length ≤ 40) && pyIstitle (pyStrip cur)) = false ∧
    endsWithAny (pyRstrip cur) punct_end = false ∧
    firstLower (pyStrip nxt) = true := by
  refine ⟨?_, ?_, ?_, ?_, ?_, ?_, ?_⟩
  · by_contra hx
    rw [Bool.not_eq_false] at hx
    simp [mergeCond, hx] at h
  · by_contra hx
    rw [Bool.not_eq_false] at hx
    simp [mergeCond, hx] at h
  · by_contra hx
    rw [Bool.not_eq_false] at hx
    simp [mergeCond, hx] at h
  · by_contra hx
    rw [Bool.not_eq_false] at hx
    simp [mergeCond, hx] at h
  · by_contra hx
    rw [Bool.not_eq_false] at hx
    simp [mergeCond, hx] at h
  · by_contra hx
    rw [Bool.not_eq_false] at hx
    simp [mergeCond, hx] at h
  · by_contra hx
    rw [Bool.not_eq_true] at hx
    simp [mergeCond, hx] at h

/-- Claim C9: join_wrapped_lines never increases the number of lines:
each loop iteration emits one line while consuming one or two. -/
theorem join_wrapped_lines_line_count (text : List Char) :
    numLines (join_wrapped_lines text) ≤ numLines text := by
  unfold numLines join_wrapped_lines
  have hnl : ∀ m ∈ joinLines (splitNl text), '\n' ∉ m :=
    joinLines_no_nl (splitNl text)
      (fun l hl => fun hc => not_sep_of_mem_splitOnChar hl hc)
  have hne : joinLines (splitNl text) ≠ [] :=
    joinLines_ne_nil (splitOnChar_ne_nil '\n' text)
  rw [show splitNl (joinNl (joinLines (splitNl text)))
      = joinLines (splitNl text) from splitNl_joinNl _ hnl hne]
  exact joinLines_length (splitNl text)

/-- Claim C6: a bullet line is never concatenated with its following
line by join_wrapped_lines, and a non-blank line followed by a bullet
line is emitted unmerged rather than merged forward into it. -/
theorem joinLines_bullet_unmerged :
    (∀ cur rest, isBulletB cur = true →
      joinLines (cur :: rest) = pyRstrip cur :: joinLines rest) ∧
    (∀ cur nxt rest, isBulletB nxt = true → isBlankL cur = false →
      joinLines (cur :: nxt :: rest) = pyRstrip cur :: joinLines (nxt :: rest)) := by
  constructor
  · intro cur rest h
    have hnb : isBlankL cur = false := isBulletB_not_blank h
    cases rest with
    | nil => simp [joinLines, hnb]
    | cons nxt rest2 =>
      by_cases hb : isBlankL nxt = true
      · simp [joinLines, hnb, hb]
      · have hb2 : isBlankL nxt = false := by simpa using hb
        simp [joinLines, hnb, hb2, h]
  · intro cur nxt rest h hnb
    have hnb2 : isBlankL nxt = false := isBulletB_not_blank h
    simp [joinLines, hnb, hnb2, h]

/-- Claim C7: join_wrapped_lines is a greedy single forward pass: a
two-line merge advances past both lines, the merged line is never
reconsidered against the line after them, and a three-line chain whose
successive pairs are both continuable yields two output lines, not
one. -/
theorem joinLines_merge_greedy :
    (∀ cur nxt rest, mergeCond cur nxt = true →
      joinLines (cur :: nxt :: rest) = mergedOf cur nxt :: joinLines rest) ∧
    (∀ a b c, mergeCond a b = true → mergeCond b c = true →
      (joinLines [a, b, c]).length = 2) := by
  have main : ∀ cur nxt rest, mergeCond cur nxt = true →
      joinLines (cur :: nxt :: rest) = mergedOf cur nxt :: joinLines rest := by
    intro cur nxt rest h
    obtain ⟨h1, h2, h3, h4, h5, h6, h7⟩ := mergeCond_elim h
    by_cases hee : endsWithChar (pyRstrip cur) '-' = true
    · simp [joinLines, mergedOf, h1, h2, h3, h4, h5, h6, h7, hee]
    · have hee2 : endsWithChar (pyRstrip cur) '-' = false := by simpa using hee
      simp [joinLines, mergedOf, h1, h2, h3, h4, h5, h6, h7, hee2]
  refine ⟨main, ?_⟩
  intro a b c h1 h2
  rw [main a b [c] h1]
  have hcnb : isBlankL c = false := (mergeCond_elim h2).2.1
  simp [joinLines, hcnb]

theorem rhfKeep_eq_not_removeSpecB (cfg : CleanConfig) (n i : Nat)
    (line : List Char) :
    rhfKeep cfg n i line = !removeSpecB cfg n i line := by
  unfold rhfKeep removeSpecB
  have key : ∀ a b c : Bool, (!(a && c) && !(b && c)) = !((a || b) && c) := by
    decide
  exact key _ _ _

/-- Claim C2: remove_headers_footers removes the line at index i exactly
when i lies in the header zone or the footer zone and the line is
classified as boilerplate; the output is the surviving lines, in order,
joined with newlines, so a boilerplate-matching line outside both zones
is retained. -/
theorem remove_headers_footers_spec (text : List Char) (cfg : CleanConfig) :
    remove_headers_footers text cfg =
      joinNl (((splitNl text).enum.filter
        (fun p => !removeSpecB cfg (splitNl text).length p.1 p.2)).map
        Prod.snd) := by
  show joinNl (((splitNl text).enum.filter
    (fun p => rhfKeep cfg (splitNl text).length p.1 p.2)).map Prod.snd) = _
  congr 1
  congr 1
  apply List.filter_congr
  intro p _
  exact rhfKeep_eq_not_removeSpecB cfg (splitNl text).length p.1 p.2

theorem checkPrefixes_eq_any (s : List Char) :
    ∀ ps : List (List Char),
      checkPrefixes s ps = ps.any (fun p => amendedPrefixRule p s) := by
  intro ps
  induction ps with
  | nil => rfl
  | cons p rest ih =>
    simp only [checkPrefixes, List.any_cons]
    by_cases hp : pyLowerStr p = "chapter".toList
    · rw [if_pos hp]
      have hh : amendedPrefixRule p s
          = List.isPrefixOf "chapter".toList (pyLowerStr s) := by
        unfold amendedPrefixRule
        rw [if_pos hp]
      rw [hh]
      cases hs : List.isPrefixOf "chapter".toList (pyLowerStr s)
      · simp [ih]
      · simp
    · rw [if_neg hp]
      have hh : amendedPrefixRule p s = List.isPrefixOf p s := by
        unfold amendedPrefixRule
        rw [if_neg hp]
      rw [hh]
      cases hs : List.isPrefixOf p s
      · simp [ih]
      · simp

/-- Claim C3 (amended): is_header_or_footer is true exactly when the
trimmed line is non-blank and is a 1-to-3 character digit string, an
exact boilerplate string, or matches a configured prefix entry — where
an entry equal to chapter ignoring case (not only the literal entry
Chapter) matches case-insensitively against the line's start, and every
other entry matches case-sensitively. -/
theorem is_header_or_footer_amended_spec (line : List Char)
    (cfg : CleanConfig) :
    is_header_or_footer line cfg = isBoilerplateAmended line cfg := by
  show (if (pyStrip line).isEmpty then false
    else if pyIsdigit (pyStrip line) && decide ((pyStrip line).length ≤ 3)
      then true
    else if cfg.header_footer_exact.contains (pyStrip line) then true
    else checkPrefixes (pyStrip line) cfg.header_footer_prefixes) =
    (!(pyStrip line).isEmpty &&
      (pyIsdigit (pyStrip line) && decide ((pyStrip line).length ≤ 3) ||
       cfg.header_footer_exact.contains (pyStrip line) ||
       cfg.header_footer_prefixes.any
         (fun p => amendedPrefixRule p (pyStrip line))))
  rw [checkPrefixes_eq_any]
  have key : ∀ e d x p : Bool,
      (if e then false else if d then true else if x then true else p) =
        (!e && (d || x || p)) := by decide
  exact key _ _ _ _

/-- Claim C3 counterexample: with the configured prefix entry CHAPTER
(upper case) and the line chapter 3, the code classifies the line as
boilerplate (the special case is keyed on the entry's lowercase form),
while the claim as stated — case-insensitive only for the literal entry
Chapter, case-sensitive otherwise — does not. -/
theorem is_header_or_footer_claim_counterexample :
    is_header_or_footer "chapter 3".toList
      { header_scan_lines := 10, footer_scan_lines := 3,
        header_footer_exact := [],
        header_footer_prefixes := ["CHAPTER".toList] } = true ∧
    isBoilerplateClaim "chapter 3".toList
      { header_scan_lines := 10, footer_scan_lines := 3,
        header_footer_exact := [],
        header_footer_prefixes := ["CHAPTER".toList] } = false := by
  constructor
  · decide
  · decide

/-- Claim C1: the sample raw page, cleaned by Normalizer, Boilerplate
Stripper (with header_scan_lines 2, footer_scan_lines 1 and the default
exact and prefix lists) and Paragraph Joiner, yields exactly the two
lines: an empty line and the joined sentence. -/
theorem pipeline_end_to_end_sample :
    splitNl (join_wrapped_lines (remove_headers_footers
      (clean_page_text
        ("FG22/5\nChapter 1\n\nThis is informa-\ntion about the policy.\n1".toList))
      { defaultCleanConfig with header_scan_lines := 2, footer_scan_lines := 1 }))
      = [[], "This is information about the policy.".toList] := by
  decide

/-- Claim C8: load_pdf_text_by_page checks, in order and before any
extraction, that the path is an existing regular file, that its
extension lowercases to .pdf, and that its size is nonzero, raising a
distinct error for each; clean_pdf_to_pages propagates any such error
unchanged, with no partial page list. -/
theorem load_pdf_checks (env : PdfEnv) :
    (env.isRegularFile = false →
      load_pdf_text_by_page env = .error .notFound) ∧
    (env.isRegularFile = true → pyLowerStr env.suffix ≠ ".pdf".toList →
      load_pdf_text_by_page env = .error .invalidFormat) ∧
    (env.isRegularFile = true → pyLowerStr env.suffix = ".pdf".toList →
      env.sizeBytes = 0 → load_pdf_text_by_page env = .error .emptyInput) ∧
    (PdfError.notFound ≠ PdfError.invalidFormat ∧
     PdfError.invalidFormat ≠ PdfError.emptyInput ∧
     PdfError.notFound ≠ PdfError.emptyInput) ∧
    (∀ (cfg : CleanConfig) (e : PdfError),
      load_pdf_text_by_page env = .error e →
      clean_pdf_to_pages env cfg = .error e) := by
  refine ⟨?_, ?_, ?_, ⟨by decide, by decide, by decide⟩, ?_⟩
  · intro h
    simp [load_pdf_text_by_page, h]
  · intro h1 h2
    simp [load_pdf_text_by_page, h1, h2]
    intro h
    exact absurd h h2
  · intro h1 h2 h3
    simp [load_pdf_text_by_page, h1, h2, h3]
  · intro cfg e h
    simp [clean_pdf_to_pages, h]

/-- Witness for the blank-collapse claim: a concrete page whose prefix
itself contains another blank line, then a run of two blank lines
between two sentences. -/
theorem clean_page_text_blank_collapse_witness :
    (1 ≤ ([[], []] : List (List Char)).length) ∧
    clean_page_text (joinNl ((["a.".toList, [], "b.".toList]
        : List (List Char)) ++ ([[], []] : List (List Char))
        ++ ["c.".toList])) =
      clean_page_text (joinNl ((["a.".toList, [], "b.".toList]
        : List (List Char)) ++ [[]] ++ ["c.".toList])) ∧
    splitNl (clean_page_text (joinNl ((["a.".toList, [], "b.".toList]
        : List (List Char)) ++ ([[], []] : List (List Char))
        ++ ["c.".toList]))) =
      collapseBlanksAux ((["a.".toList, [], "b.".toList]
        : List (List Char)).map (pyRstrip ∘ replaceTab)) false
        ++ [] :: collapseBlanksAux ((["c.".toList]
        : List (List Char)).map (pyRstrip ∘ replaceTab)) false :=
  ⟨by decide,
   (clean_page_text_blank_collapse ["a.".toList, [], "b.".toList] [[], []]
     ["c.".toList] (by decide) (by decide) (by decide)
     (by
       intro a ha
       injection ha with h2
       subst h2
       decide)
     (by
       intro b hb
       injection hb with h2
       subst h2
       decide)).1,
   (clean_page_text_blank_collapse ["a.".toList, [], "b.".toList] [[], []]
     ["c.".toList] (by decide) (by decide) (by decide)
     (by
       intro a ha
       injection ha with h2
       subst h2
       decide)
     (by
       intro b hb
       injection hb with h2
       subst h2
       decide)).2⟩

/-- Witness for the bullet claim: a bullet line followed by a lowercase
continuation stays unmerged, and a text line before a bullet stays
unmerged. -/
theorem joinLines_bullet_unmerged_witness :
    isBulletB "• itm".toList = true ∧
    joinLines ["• itm".toList, "cont".toList] =
      pyRstrip "• itm".toList :: joinLines ["cont".toList] ∧
    joinLines ["Text".toList, "- b".toList] =
      pyRstrip "Text".toList :: joinLines ["- b".toList] :=
  ⟨by decide,
   joinLines_bullet_unmerged.1 "• itm".toList ["cont".toList] (by decide),
   joinLines_bullet_unmerged.2 "Text".toList "- b".toList [] (by decide)
     (by decide)⟩

/-- Witness for the greedy-merge claim: three lines whose successive
pairs are both continuable produce two output lines. -/
theorem joinLines_merge_greedy_witness :
    mergeCond "alpha beta".toList "gamma delta".toList = true ∧
    mergeCond "gamma delta".toList "eps zeta".toList = true ∧
    joinLines ["alpha beta".toList, "gamma delta".toList, "eps zeta".toList]
      = mergedOf "alpha beta".toList "gamma delta".toList
        :: joinLines ["eps zeta".toList] ∧
    (joinLines ["alpha beta".toList, "gamma delta".toList,
      "eps zeta".toList]).length = 2 :=
  ⟨by decide, by decide,
   joinLines_merge_greedy.1 "alpha beta".toList "gamma delta".toList
     ["eps zeta".toList] (by decide),
   joinLines_merge_greedy.2 "alpha beta".toList "gamma delta".toList
     "eps zeta".toList (by decide) (by decide)⟩

/-- Witness for the loader claim: a path that is not a regular file
yields the not-found error. -/
theorem load_pdf_checks_witness :
    ({ isRegularFile := false, suffix := ".pdf".toList, sizeBytes := 7,
       extractedPages := some [] } : PdfEnv).isRegularFile = false ∧
    load_pdf_text_by_page
      { isRegularFile := false, suffix := ".pdf".toList, sizeBytes := 7,
        extractedPages := some [] } = .error .notFound :=
  ⟨rfl,
   (load_pdf_checks
     { isRegularFile := false, suffix := ".pdf".toList, sizeBytes := 7,
       extractedPages := some [] }).1 rfl⟩
